import Mathlib

/-!
Verification of the dynamic instrumentation engine
(`packages/dd-trace/src/instrumenter.js`).

The JavaScript source is shallowly embedded: the `Instrumenter` class
becomes a state type `IState` with one Lean function per method, JS `Map`s
become association lists, JS `Set`s become lists used as sets, and
exceptions become explicit `Bool` "threw" flags threaded next to the state
(JS exceptions do not roll back mutations, so every operation returns the
state reached at the point of the throw).  External collaborators that are
not part of the source tree (the platform `Loader`, the `shimmer`
interception primitive, `util.isTrue`/`isFalse`) are modelled from the
specification's interface contracts and are marked as such in their doc
comments.
-/

/-! ### Association lists (the shallow embedding of JS `Map`) -/

/-- Lookup of the first binding of key `k` (JS `Map.prototype.get`). -/
def aget {K V : Type} [DecidableEq K] : List (K × V) → K → Option V
  | [], _ => none
  | (k', v) :: t, k => if k' = k then some v else aget t k

/-- Insert-or-overwrite of key `k` (JS `Map.prototype.set`): the first
binding is replaced in place, otherwise the binding is appended. -/
def aset {K V : Type} [DecidableEq K] : List (K × V) → K → V → List (K × V)
  | [], k, v => [(k, v)]
  | (k', v') :: t, k, v => if k' = k then (k, v) :: t else (k', v') :: aset t k v

/-- Deletion of every binding of key `k` (JS `Map.prototype.delete`). -/
def adel {K V : Type} [DecidableEq K] : List (K × V) → K → List (K × V)
  | [], _ => []
  | (k', v) :: t, k => if k' = k then adel t k else (k', v) :: adel t k

theorem aget_aset_self {K V : Type} [DecidableEq K] (l : List (K × V)) (k : K) (v : V) :
    aget (aset l k v) k = some v := by
  induction l with
  | nil => simp [aget, aset]
  | cons hd t ih =>
    by_cases h : hd.1 = k
    · simp [aset, aget, h]
    · simp [aset, aget, h, ih]

theorem aget_aset_ne {K V : Type} [DecidableEq K] (l : List (K × V)) (k k' : K) (v : V)
    (h : k ≠ k') : aget (aset l k v) k' = aget l k' := by
  induction l with
  | nil => simp [aget, aset, h]
  | cons hd t ih =>
    by_cases hh : hd.1 = k
    · simp [aset, aget, hh, h]
    · simp only [aset, hh, if_false, aget]
      by_cases hk : hd.1 = k'
      · simp [hk]
      · simp [hk, ih]

theorem aget_adel_self {K V : Type} [DecidableEq K] (l : List (K × V)) (k : K) :
    aget (adel l k) k = none := by
  induction l with
  | nil => simp [aget, adel]
  | cons hd t ih =>
    by_cases h : hd.1 = k
    · simpa [adel, h] using ih
    · simpa [adel, aget, h] using ih

theorem aget_adel_ne {K V : Type} [DecidableEq K] (l : List (K × V)) (k k' : K)
    (h : k ≠ k') : aget (adel l k) k' = aget l k' := by
  induction l with
  | nil => simp [aget, adel]
  | cons hd t ih =>
    obtain ⟨k1, v1⟩ := hd
    by_cases hh : k1 = k
    · subst hh
      simp [adel, aget, h, ih]
    · by_cases hk : k1 = k'
      · subst hk
        simp [adel, aget, hh]
      · simp [adel, aget, hh, hk, ih]

theorem aget_adel_none {K V : Type} [DecidableEq K] (l : List (K × V)) (k k' : K)
    (h : aget l k' = none) : aget (adel l k) k' = none := by
  by_cases hk : k = k'
  · rw [hk]; exact aget_adel_self l k'
  · rw [aget_adel_ne l k k' hk]; exact h

theorem aget_of_mem_nodup {K V : Type} [DecidableEq K] (l : List (K × V)) (k : K) (v : V)
    (hnd : (l.map Prod.fst).Nodup) (hm : (k, v) ∈ l) : aget l k = some v := by
  induction l with
  | nil => simp at hm
  | cons hd t ih =>
    simp only [List.map_cons, List.nodup_cons] at hnd
    rcases List.mem_cons.mp hm with h | h
    · rw [← h]; simp [aget]
    · have hk : hd.1 ≠ k := by
        intro hc
        exact hnd.1 (by simpa [← hc] using List.mem_map_of_mem Prod.fst h)
      simp only [aget, hk, if_false]
      exact ih hnd.2 h

/-! ### Configuration resolver (`getConfig`, `cleanEnv`) -/

/-- Modelled from the spec: `util.isTrue` (the `util` module is not part of
the source tree).  Tri-state boolean parse of an environment value:
explicit `"true"` string only. -/
def isTrueOpt (v : Option String) : Bool := v = some "true"

/-- Modelled from the spec: `util.isFalse` (the `util` module is not part of
the source tree).  Explicit `"false"` string only. -/
def isFalseOpt (v : Option String) : Bool := v = some "false"

/-- The `analytics` field of a resolved config: either an explicit boolean
or a numeric sample rate. -/
abbrev AnalyticsVal := Bool ⊕ ℚ

/-- A per-integration configuration object (`{enabled, analytics}`). -/
structure IntConfig where
  enabled : Option Bool := none
  analytics : Option AnalyticsVal := none
  deriving DecidableEq, Repr

/-- The environment answers for one integration name's keys, as read
through `cleanEnv` (`DD_TRACE_<NAME>_<SUFFIX>`).  The numeric parse of the
sample-rate string is abstracted: `analyticsSampleRate` is the JS
`Number(...)` of the raw value, `none` when that is `NaN` (absent or
unparsable), so that `Math.min(Math.max(·,0),1)` followed by the
`Number.isNaN` guard is faithfully represented. -/
structure EnvCfg where
  enabled : Option String := none
  analyticsEnabled : Option String := none
  analyticsSampleRate : Option ℚ := none

/-- `getConfig(name, config)` from the source: resolves the `enabled` flag
and the analytics precedence chain (explicit false, then valid clamped
sample rate, then explicit true, else left unset). -/
def getConfig (name : String) (env : EnvCfg) (config : IntConfig) : IntConfig :=
  if name = "" then config
  else
    let c1 := match env.enabled with
      | some v => { config with enabled := some (isTrueOpt (some v)) }
      | none => config
    let rate : Option ℚ := env.analyticsSampleRate.map (fun q => min (max q 0) 1)
    if isFalseOpt env.analyticsEnabled then
      { c1 with analytics := some (Sum.inl false) }
    else
      match rate with
      | some q => { c1 with analytics := some (Sum.inr q) }
      | none =>
        if isTrueOpt env.analyticsEnabled then { c1 with analytics := some (Sum.inl true) }
        else c1

/-- ASCII lowercasing, the semantics of `name.toLowerCase()` on the
integration names used by the catalog. -/
def jsToLower (s : String) : String :=
  ⟨s.data.map (fun c => if 'A' ≤ c ∧ c ≤ 'Z' then Char.ofNat (c.toNat + 32) else c)⟩


/-! ### Plugin Registry & Orchestrator (the `Instrumenter` class)

Identities: a catalog plugin is a `ℕ`; an instrumentation unit is a `ℕ`;
an exports object is a `ℕ`.  JS `undefined` flowing through a plugin or
instrumentation position (e.g. `plugins[name]` for an unknown name) is
represented by `Option ℕ` with `none` for `undefined`. -/

/-- The `{name, config}` record stored in the `_plugins` registry. -/
structure Meta where
  name : String
  config : IntConfig
  deriving DecidableEq, Repr

/-- The mutable instance state of an `Instrumenter`.  `patchCalls` and
`unpatchCalls` are ghost logs of the invocations of integration `patch` /
`unpatch` capabilities, recorded so that at-most-once and never-invoked
properties can be stated. -/
structure IState where
  enabled : Bool
  pluginsMap : List (Option ℕ × Meta)
  instrumented : List (Option ℕ × List ℕ)
  patchCalls : List (Option ℕ × ℕ)
  unpatchCalls : List (Option ℕ × ℕ)
  deriving DecidableEq, Repr

/-- The read-only environment of an `Instrumenter`: the static plugin
catalog (`platform.plugins`, keys already lowercase in the source tree's
catalog, here arbitrary), the decomposition of each plugin into its
instrumentation units (`[].concat(plugin)`), which exports objects the
platform currently has loaded for each instrumentation (drives the Load
Hook), whether an integration's `patch` capability throws on a given
exports object, the Disabled-Set (`_disabledPlugins`, computed once at
construction and never mutated), and the per-name environment
configuration. -/
structure OEnv where
  catalog : List (String × ℕ)
  pluginInsts : ℕ → List ℕ
  available : ℕ → List ℕ
  patchThrows : Option ℕ → ℕ → Bool
  disabledPlugins : List String
  envOf : String → EnvCfg

/-- `Instrumenter#patch`: looks up or creates the InstrumentedSet entry,
and if the exports object is not yet a member, adds it and invokes the
integration's `patch` capability (which may throw — the returned `Bool` is
the thrown flag; mutations made before the throw persist). -/
def patchOp (env : OEnv) (st : IState) (inst : Option ℕ) (exp : ℕ) : IState × Bool :=
  match aget st.instrumented inst with
  | some s =>
      if exp ∈ s then (st, false)
      else
        ({ st with instrumented := aset st.instrumented inst (s ++ [exp]),
                   patchCalls := st.patchCalls ++ [(inst, exp)] },
         env.patchThrows inst exp)
  | none =>
      ({ st with instrumented := aset st.instrumented inst [exp],
                 patchCalls := st.patchCalls ++ [(inst, exp)] },
       env.patchThrows inst exp)

/-- `Instrumenter#unpatch`: invokes the integration's `unpatch` capability
on every instrumented exports object, swallowing per-object errors.  Note:
it does not remove the InstrumentedSet entry. -/
def unpatchOp (_env : OEnv) (st : IState) (inst : Option ℕ) : IState :=
  match aget st.instrumented inst with
  | none => st
  | some s => { st with unpatchCalls := st.unpatchCalls ++ s.map (fun e => (inst, e)) }

/-- Invoke `patchOp` on each available exports object in order, stopping
at the first thrown error (a JS exception escapes the loop). -/
def patchAll (env : OEnv) (st : IState) (i : ℕ) : List ℕ → IState × Bool
  | [] => (st, false)
  | e :: rest =>
      let r := patchOp env st (some i) e
      if r.2 then (r.1, true) else patchAll env r.1 i rest

/-- Modelled from the spec: `platform.Loader#load` (the Load Hook
collaborator; its implementation is not part of the source tree).  Per the
interface contract it detects the currently loaded components matching the
instrumentation and invokes the orchestrator's `patch` sequence on each;
an error raised by a `patch` capability propagates to the caller.  An
`undefined` instrumentation (unknown plugin name) makes the hook throw. -/
def loaderLoad (env : OEnv) (st : IState) (inst : Option ℕ) : IState × Bool :=
  match inst with
  | none => (st, true)
  | some i => patchAll env st i (env.available i)

/-- The `forEach` over an integration's instrumentation units inside
`Instrumenter#load`'s `try` block; an exception escapes the iteration. -/
def loadMany (env : OEnv) (st : IState) : List (Option ℕ) → IState × Bool
  | [] => (st, false)
  | i :: rest =>
      let r := loaderLoad env st i
      if r.2 then (r.1, true) else loadMany env r.1 rest

/-- `[].concat(plugin)`: the instrumentation units composing a plugin;
`undefined` yields the one-element list `[undefined]`. -/
def instsOf (env : OEnv) : Option ℕ → List (Option ℕ)
  | some p => (env.pluginInsts p).map some
  | none => [none]

/-- `Instrumenter#unpatch` applied and the InstrumentedSet entry deleted —
the body of the `forEach` in `Instrumenter#unload`. -/
def unloadStep (env : OEnv) (st : IState) (i : Option ℕ) : IState :=
  let s1 := unpatchOp env st i
  { s1 with instrumented := adel s1.instrumented i }

/-- `Instrumenter#unload`: unpatches every instrumentation unit and
removes its InstrumentedSet entry, then removes the RegistrationEntry if
present. -/
def unload (env : OEnv) (st : IState) (p : Option ℕ) : IState :=
  let st1 := (instsOf env p).foldl (unloadStep env) st
  match aget st1.pluginsMap p with
  | some _ => { st1 with pluginsMap := adel st1.pluginsMap p }
  | none => st1

/-- `Instrumenter#load`: no-op when the engine is disabled; otherwise runs
the Load Hook on every instrumentation unit and, if any of them throws,
logs, unloads the entire plugin and returns normally (the error never
propagates: the function is total and has no error channel). -/
def load (env : OEnv) (st : IState) (p : Option ℕ) : IState :=
  if st.enabled = false then st
  else
    let r := loadMany env st (instsOf env p)
    if r.2 then unload env r.1 p else r.1

/-- `Instrumenter#_set`: refuses registration when the caller-supplied
`meta.name` is in the Disabled-Set; otherwise stores the RegistrationEntry
and immediately attempts to load the plugin. -/
def setOp (env : OEnv) (st : IState) (p : Option ℕ) (meta : Meta) : IState :=
  if meta.name ∈ env.disabledPlugins then st
  else load env { st with pluginsMap := aset st.pluginsMap p meta } p

/-- The `config` argument of `Instrumenter#use`: absent, the boolean
shorthand, or a config object. -/
inductive UseArg where
  | noArg
  | boolArg (b : Bool)
  | objArg (c : IntConfig)
  deriving DecidableEq, Repr

/-- The boolean-shorthand normalization at the top of `Instrumenter#use`. -/
def normalizeUseConfig : UseArg → IntConfig
  | .noArg => {}
  | .boolArg b => { enabled := some b }
  | .objArg c => c

/-- `Instrumenter#use`: resolves the config, looks up
`plugins[name.toLowerCase()]` (an unknown name yields `undefined` and is
passed to `_set` as-is — for a string name nothing in that flow throws, so
the surrounding `try`/`catch` has no effect) and registers.  The
`loader.reload` call when enabled is a collaborator call with no effect on
the instance state. -/
def use (env : OEnv) (st : IState) (name : String) (arg : UseArg) : IState :=
  let cfg := getConfig name (env.envOf name) (normalizeUseConfig arg)
  setOp env st (aget env.catalog (jsToLower name)) ⟨name, cfg⟩

/-- `Instrumenter#enable`: marks the engine enabled, then (unless plugin
auto-registration is suppressed) registers every catalog plugin that was
not registered at the time the filter ran — the source filters
`Object.keys(plugins)` eagerly before the `forEach` of `_set` calls. -/
def enable (env : OEnv) (st : IState) (withPlugins : Bool) : IState :=
  let st1 := { st with enabled := true }
  if withPlugins then
    let pending := env.catalog.filter (fun np => aget st1.pluginsMap (some np.2) = none)
    pending.foldl
      (fun s np => setOp env s (some np.2) ⟨np.1, getConfig np.1 (env.envOf np.1) {}⟩) st1
  else st1

/-- `Instrumenter#disable`: unpatches every instrumented integration (the
InstrumentedSet entries themselves are not removed), clears the registry
and marks the engine disabled. -/
def disable (env : OEnv) (st : IState) : IState :=
  let st1 := (st.instrumented.map Prod.fst).foldl (unpatchOp env) st
  { st1 with pluginsMap := [], enabled := false }

/-- The public operations of the orchestrator, for reasoning about
arbitrary call sequences. -/
inductive Op where
  | useOp (name : String) (arg : UseArg)
  | enableOp (withPlugins : Bool)
  | disableOp
  deriving DecidableEq, Repr

/-- Apply one public operation. -/
def applyOp (env : OEnv) (st : IState) : Op → IState
  | .useOp n a => use env st n a
  | .enableOp b => enable env st b
  | .disableOp => disable env st

/-- Run a sequence of public operations. -/
def run (env : OEnv) : List Op → IState → IState
  | [], st => st
  | op :: rest, st => run env rest (applyOp env st op)

/-- Plugin `pid` has never been touched: no RegistrationEntry, no
InstrumentedSet entry for any of its instrumentation units, and no `patch`
capability invocation recorded for any of them. -/
def untouched (env : OEnv) (pid : ℕ) (st : IState) : Prop :=
  aget st.pluginsMap (some pid) = none ∧
  (∀ i ∈ env.pluginInsts pid, aget st.instrumented (some i) = none) ∧
  (∀ pr ∈ st.patchCalls, ∀ i ∈ env.pluginInsts pid, pr.1 ≠ some i)

/-! ### Wrap Engine (`Instrumenter#wrap`, `getPrepatchWrappedFunction`)

Function values are embedded with value semantics: a JS function object
becomes a `JsVal.func` carrying its behavior (`FnCore`), its
`_datadog_patched` own property and its `_datadog_wrapped` own property
(`none` = key absent, `some .nullV` = key present holding `null`).
Symbol-keyed own properties (copied by the shimmer callback in the
source) do not occur in the model. -/

mutual
inductive FnCore where
  | plain (id : ℕ)
  | factoryApplied (fid : ℕ) (inner : JsVal)
  | prepatchShim (captured : JsVal)

inductive JsVal where
  | func (core : FnCore) (patched : Bool) (wrapped : Option JsVal)
  | nullV
  | dataV (id : ℕ)
end

/-- JS truthiness on the embedded values (`null` is falsy). -/
def truthy : JsVal → Bool
  | .nullV => false
  | _ => true

mutual
/-- The observable behavior of invoking a bare function behavior: the
sequence of wrapper-factory identities executed, ending in the identity of
the innermost plain function. -/
def coreTrace : FnCore → List ℕ
  | .plain id => [id]
  | .factoryApplied fid inner => fid :: valTrace inner
  | .prepatchShim captured => valTrace captured

/-- The observable behavior of invoking a value.  Only the
`prepatchWrapped` closure from `getPrepatchWrappedFunction` consults the
`_datadog_wrapped` own property (`prepatchWrapped._datadog_wrapped || fn`);
every other function ignores it.  Invoking `null` or a non-function is a
`TypeError`, represented by the empty trace. -/
def valTrace : JsVal → List ℕ
  | .func (.prepatchShim cap) _ w =>
      match w with
      | some v => if truthy v then valTrace v else valTrace cap
      | none => valTrace cap
  | .func c _ _ => coreTrace c
  | .nullV => []
  | .dataV _ => []
end

/-- A host object: own properties by name. -/
abbrev Obj := List (String × JsVal)

/-- The store of host objects; a "nodule" in a wrap batch is a reference
into it, so the mutation of one target is visible through every alias. -/
abbrev Heap := List Obj

def getObj : Heap → ℕ → Obj
  | [], _ => []
  | o :: _, 0 => o
  | _ :: t, r + 1 => getObj t r

def getMember (h : Heap) (r : ℕ) (n : String) : Option JsVal := aget (getObj h r) n

def setMember (h : Heap) (r : ℕ) (n : String) (v : JsVal) : Heap :=
  h.set r (aset (getObj h r) n v)

/-- `typeof nodule[name] === 'function'`. -/
def isCallable : Option JsVal → Bool
  | some (.func _ _ _) => true
  | _ => false

/-- The validation pass of `Instrumenter#wrap`: every requested member must
exist and be callable on every target before anything is mutated. -/
def validOk (h : Heap) (refs : List ℕ) (names : List String) : Bool :=
  refs.all (fun r => names.all (fun n => isCallable (getMember h r n)))

/-- A wrapper factory: either an integration-supplied generic wrapper
(identified by `fid`; applying it yields a new function with behavior
`fid` layered over the argument and no own marker properties) or
`getPrepatchWrappedFunction` (yielding the `prepatchWrapped` closure whose
`_datadog_wrapped` own property is initialized to the argument). -/
inductive Factory where
  | generic (fid : ℕ)
  | prepatchF
  deriving DecidableEq, Repr

def applyFactory : Factory → JsVal → JsVal
  | .generic fid, v => .func (.factoryApplied fid v) false none
  | .prepatchF, v => .func (.prepatchShim v) false (some v)

/-- One `(nodule, name)` iteration of the wrapping loop of
`Instrumenter#wrap`: sets the `_datadog_patched` marker; if the member
carries a `_datadog_wrapped` own key, updates that indirection with the
factory applied to the currently stored value and then `return`s from the
whole `wrap` call (the third component reports this early return);
otherwise delegates to the `shimmer.wrap` interception primitive, which
replaces the member with the factory applied to the (now marked) original
— the middle component counts shimmer invocations. -/
def wrapStep (h : Heap) (c : ℕ) (r : ℕ) (n : String) (f : Factory) : Heap × ℕ × Bool :=
  match getMember h r n with
  | some (.func core _ w) =>
      match w with
      | some stored =>
          (setMember h r n (.func core true (some (applyFactory f stored))), c, true)
      | none =>
          (setMember h r n (applyFactory f (.func core true none)), c + 1, false)
  | _ => (h, c, false)

/-- The wrapping loop over the cartesian product, faithful to the early
`return` in the source. -/
def wrapLoop (f : Factory) : List (ℕ × String) → Heap → ℕ → Heap × ℕ
  | [], h, c => (h, c)
  | (r, n) :: rest, h, c =>
      let s := wrapStep h c r n f
      if s.2.2 then (s.1, s.2.1) else wrapLoop f rest s.1 s.2.1

/-- The iteration order of the two nested `for` loops: targets outer,
member names inner. -/
def pairsOf (refs : List ℕ) (names : List String) : List (ℕ × String) :=
  refs.flatMap (fun r => names.map (fun n => (r, n)))

/-- `Instrumenter#wrap`: validation first (throwing, with no mutation, if
any member is missing or not callable), then the wrapping loop.  Returns
(thrown error, heap, number of `shimmer.wrap` invocations). -/
def wrapT (h : Heap) (refs : List ℕ) (names : List String) (f : Factory) :
    Option String × Heap × ℕ :=
  if validOk h refs names then
    let r := wrapLoop f (pairsOf refs names) h 0
    (none, r.1, r.2)
  else (some "Expected object to contain method.", h, 0)

/-! ### `Instrumenter#wrapExport` -/

/-- A module-exports value for the export-shim mechanism: callable or not,
an identity for its behavior, enumerable own properties (`Object.keys`)
and the `_datadog_wrapper` own property.  A shim produced by `wrapExport`
records which function it forwards to (`shimOf`). -/
structure EVal where
  isFn : Bool
  fnId : ℕ
  shimOf : Option ℕ := none
  props : List (String × ℕ) := []
  ddWrapper : Option ℕ := none
  deriving DecidableEq, Repr

/-- `Instrumenter#wrapExport`: a non-function export is returned
unmodified; a function export gets its enumerable own properties copied
onto a fresh forwarding shim, has `_datadog_wrapper` set to the supplied
wrapper, and the shim is returned.  The result is
(returned value, post-state of the exports object). -/
def wrapExport (v : EVal) (wrapperId : ℕ) : EVal × EVal :=
  if v.isFn = false then (v, v)
  else
    ({ isFn := true, fnId := v.fnId, shimOf := some v.fnId, props := v.props,
       ddWrapper := none },
     { v with ddWrapper := some wrapperId })

/-- The instrumentations of the plugins of plugin `pid` are not shared with
any other plugin (two catalog plugins do not reuse the same instrumentation
unit object). -/
def instsDisjoint (env : OEnv) (pid : ℕ) : Prop :=
  ∀ p', p' ≠ pid → ∀ i ∈ env.pluginInsts p', i ∉ env.pluginInsts pid

/-! ### Concrete fixtures used by witnesses and counterexamples -/

/-- A catalog with one plugin `"foo"` (id 0, one instrumentation unit 7
with one matching loaded exports object 5), Disabled-Set `{"foo"}`, and no
throwing patch capabilities. -/
def envFix : OEnv where
  catalog := [("foo", 0)]
  pluginInsts := fun p => if p = 0 then [7] else []
  available := fun i => if i = 7 then [5] else []
  patchThrows := fun _ _ => false
  disabledPlugins := ["foo"]
  envOf := fun _ => {}

/-- A two-plugin catalog where plugin 0's instrumentation 7 throws while
patching exports object 5, and plugin 1's instrumentation 8 patches
exports object 6 cleanly. -/
def envTwo : OEnv where
  catalog := [("a", 0), ("b", 1)]
  pluginInsts := fun p => if p = 0 then [7] else if p = 1 then [8] else []
  available := fun i => if i = 7 then [5] else if i = 8 then [6] else []
  patchThrows := fun i e => i = some 7 && e = 5
  disabledPlugins := []
  envOf := fun _ => {}

/-- The freshly constructed (still disabled) orchestrator state. -/
def stOff : IState where
  enabled := false
  pluginsMap := []
  instrumented := []
  patchCalls := []
  unpatchCalls := []

/-- An enabled orchestrator state with plugin 0 registered. -/
def stOn : IState where
  enabled := true
  pluginsMap := [(some 0, ⟨"a", {}⟩)]
  instrumented := []
  patchCalls := []
  unpatchCalls := []

/-- A function value with no marker properties. -/
def plainFn (id : ℕ) : JsVal := .func (.plain id) false none

/-- A heap whose single object carries a prepatch-staged member `"f"`
(the `prepatchWrapped` shim over `plainFn 0`, `_datadog_wrapped`
initialized to it) next to an untouched member `"g"`. -/
def heapFG : Heap :=
  [[("f", JsVal.func (.prepatchShim (plainFn 0)) false (some (plainFn 0))),
    ("g", plainFn 1)]]

/-- A heap whose single object has one plain callable member `"m"`. -/
def heapM : Heap := [[("m", plainFn 0)]]

/-- A heap for the atomic-wrap witness: object 0 has member `"f"` but
object 1 does not. -/
def heapAB : Heap := [[("f", plainFn 0), ("g", plainFn 1)], [("f", plainFn 2)]]

/-! ### Frame lemmas for the orchestrator operations -/

theorem patchOp_frame (env : OEnv) (st : IState) (i : Option ℕ) (e : ℕ) :
    (patchOp env st i e).1.pluginsMap = st.pluginsMap ∧
    (patchOp env st i e).1.enabled = st.enabled ∧
    (patchOp env st i e).1.unpatchCalls = st.unpatchCalls := by
  unfold patchOp
  rcases aget st.instrumented i with _ | s
  · exact ⟨rfl, rfl, rfl⟩
  · by_cases he : e ∈ s <;> simp [he]

theorem patchAll_frame (env : OEnv) (i : ℕ) (exps : List ℕ) (st : IState) :
    (patchAll env st i exps).1.pluginsMap = st.pluginsMap ∧
    (patchAll env st i exps).1.enabled = st.enabled ∧
    (patchAll env st i exps).1.unpatchCalls = st.unpatchCalls := by
  induction exps generalizing st with
  | nil => exact ⟨rfl, rfl, rfl⟩
  | cons e rest ih =>
    simp only [patchAll]
    by_cases ht : (patchOp env st i e).2
    · simpa [ht] using patchOp_frame env st i e
    · have h1 := patchOp_frame env st i e
      have h2 := ih (patchOp env st i e).1
      simp only [ht, if_false]
      exact ⟨h2.1.trans h1.1, h2.2.1.trans h1.2.1, h2.2.2.trans h1.2.2⟩

theorem loaderLoad_frame (env : OEnv) (st : IState) (i : Option ℕ) :
    (loaderLoad env st i).1.pluginsMap = st.pluginsMap ∧
    (loaderLoad env st i).1.enabled = st.enabled ∧
    (loaderLoad env st i).1.unpatchCalls = st.unpatchCalls := by
  rcases i with _ | i
  · exact ⟨rfl, rfl, rfl⟩
  · exact patchAll_frame env i (env.available i) st

theorem loadMany_frame (env : OEnv) (insts : List (Option ℕ)) (st : IState) :
    (loadMany env st insts).1.pluginsMap = st.pluginsMap ∧
    (loadMany env st insts).1.enabled = st.enabled ∧
    (loadMany env st insts).1.unpatchCalls = st.unpatchCalls := by
  induction insts generalizing st with
  | nil => exact ⟨rfl, rfl, rfl⟩
  | cons i rest ih =>
    simp only [loadMany]
    by_cases ht : (loaderLoad env st i).2
    · simpa [ht] using loaderLoad_frame env st i
    · have h1 := loaderLoad_frame env st i
      have h2 := ih (loaderLoad env st i).1
      simp only [ht, if_false]
      exact ⟨h2.1.trans h1.1, h2.2.1.trans h1.2.1, h2.2.2.trans h1.2.2⟩

theorem unpatchOp_frame (env : OEnv) (st : IState) (i : Option ℕ) :
    (unpatchOp env st i).pluginsMap = st.pluginsMap ∧
    (unpatchOp env st i).enabled = st.enabled ∧
    (unpatchOp env st i).instrumented = st.instrumented ∧
    (unpatchOp env st i).patchCalls = st.patchCalls := by
  unfold unpatchOp
  rcases aget st.instrumented i with _ | s <;> exact ⟨rfl, rfl, rfl, rfl⟩

theorem unloadStep_frame (env : OEnv) (st : IState) (i : Option ℕ) :
    (unloadStep env st i).pluginsMap = st.pluginsMap ∧
    (unloadStep env st i).enabled = st.enabled ∧
    (unloadStep env st i).patchCalls = st.patchCalls := by
  have h := unpatchOp_frame env st i
  exact ⟨h.1, h.2.1, h.2.2.2⟩

theorem unloadFold_frame (env : OEnv) (l : List (Option ℕ)) (st : IState) :
    (l.foldl (unloadStep env) st).pluginsMap = st.pluginsMap ∧
    (l.foldl (unloadStep env) st).enabled = st.enabled ∧
    (l.foldl (unloadStep env) st).patchCalls = st.patchCalls := by
  induction l generalizing st with
  | nil => exact ⟨rfl, rfl, rfl⟩
  | cons i rest ih =>
    have h1 := unloadStep_frame env st i
    have h2 := ih (unloadStep env st i)
    exact ⟨h2.1.trans h1.1, h2.2.1.trans h1.2.1, h2.2.2.trans h1.2.2⟩

theorem unloadStep_instr_self (env : OEnv) (st : IState) (i : Option ℕ) :
    aget (unloadStep env st i).instrumented i = none := by
  unfold unloadStep
  exact aget_adel_self _ i

theorem unloadStep_instr_none (env : OEnv) (st : IState) (i j : Option ℕ)
    (h : aget st.instrumented j = none) :
    aget (unloadStep env st i).instrumented j = none := by
  have hin : (unpatchOp env st i).instrumented = st.instrumented :=
    (unpatchOp_frame env st i).2.2.1
  show aget (adel (unpatchOp env st i).instrumented i) j = none
  rw [hin]
  exact aget_adel_none _ i j h

theorem unloadFold_instr_none (env : OEnv) (l : List (Option ℕ)) (st : IState) (j : Option ℕ)
    (h : aget st.instrumented j = none) :
    aget (l.foldl (unloadStep env) st).instrumented j = none := by
  induction l generalizing st with
  | nil => exact h
  | cons i rest ih => exact ih _ (unloadStep_instr_none env st i j h)

theorem unloadFold_instr_mem (env : OEnv) (l : List (Option ℕ)) (st : IState) (j : Option ℕ)
    (hj : j ∈ l) : aget (l.foldl (unloadStep env) st).instrumented j = none := by
  induction l generalizing st with
  | nil => simp at hj
  | cons i rest ih =>
    rcases List.mem_cons.mp hj with h | h
    · subst h
      exact unloadFold_instr_none env rest _ j (unloadStep_instr_self env st j)
    · exact ih (unloadStep env st i) h

theorem unload_pluginsMap_self (env : OEnv) (st : IState) (p : Option ℕ) :
    aget (unload env st p).pluginsMap p = none := by
  unfold unload
  rcases hm : aget ((instsOf env p).foldl (unloadStep env) st).pluginsMap p with _ | m
  · simp only [hm]
  · simp only [hm]
    exact aget_adel_self _ p

theorem unload_instr_mem (env : OEnv) (st : IState) (p : Option ℕ) (i : Option ℕ)
    (hi : i ∈ instsOf env p) : aget (unload env st p).instrumented i = none := by
  unfold unload
  rcases hm : aget ((instsOf env p).foldl (unloadStep env) st).pluginsMap p with _ | m
  · simp only [hm]
    exact unloadFold_instr_mem env _ st i hi
  · simp only [hm]
    exact unloadFold_instr_mem env _ st i hi

theorem patchOp_mem_self (env : OEnv) (st : IState) (i : Option ℕ) (e : ℕ) :
    e ∈ (aget (patchOp env st i e).1.instrumented i).getD [] := by
  unfold patchOp
  rcases hs : aget st.instrumented i with _ | s
  · simp [aget_aset_self]
  · by_cases he : e ∈ s
    · simp [he, hs]
    · simp [he, aget_aset_self]

theorem patchOp_mem_mono (env : OEnv) (st : IState) (i : Option ℕ) (e : ℕ)
    (k : Option ℕ) (x : ℕ) (hx : x ∈ (aget st.instrumented k).getD []) :
    x ∈ (aget (patchOp env st i e).1.instrumented k).getD [] := by
  unfold patchOp
  rcases hs : aget st.instrumented i with _ | s
  · by_cases hk : i = k
    · subst hk
      rw [hs] at hx
      simp at hx
    · simpa [aget_aset_ne _ i k _ hk] using hx
  · by_cases he : e ∈ s
    · simpa [he] using hx
    · by_cases hk : i = k
      · subst hk
        rw [hs] at hx
        simp only [Option.getD_some] at hx
        simp [he, aget_aset_self, List.mem_append, hx]
      · simpa [he, aget_aset_ne _ i k _ hk] using hx

theorem patchAll_no_throw (env : OEnv) (i : ℕ) (exps : List ℕ) (st : IState)
    (h : ∀ e ∈ exps, env.patchThrows (some i) e = false) :
    (patchAll env st i exps).2 = false := by
  induction exps generalizing st with
  | nil => rfl
  | cons e rest ih =>
    have hth : (patchOp env st (some i) e).2 = false := by
      unfold patchOp
      rcases hs : aget st.instrumented (some i) with _ | s
      · exact h e (by simp)
      · by_cases he : e ∈ s
        · simp [he]
        · simpa [he] using h e (by simp)
    simp only [patchAll, hth, if_false]
    exact ih _ (fun e' he' => h e' (List.mem_cons_of_mem e he'))

theorem patchAll_mem_mono (env : OEnv) (i : ℕ) (exps : List ℕ) (st : IState)
    (k : Option ℕ) (x : ℕ) (hx : x ∈ (aget st.instrumented k).getD []) :
    x ∈ (aget (patchAll env st i exps).1.instrumented k).getD [] := by
  induction exps generalizing st with
  | nil => exact hx
  | cons e rest ih =>
    simp only [patchAll]
    by_cases ht : (patchOp env st (some i) e).2
    · simpa [ht] using patchOp_mem_mono env st (some i) e k x hx
    · simp only [ht, if_false]
      exact ih _ (patchOp_mem_mono env st (some i) e k x hx)

theorem patchAll_mem (env : OEnv) (i : ℕ) (exps : List ℕ) (st : IState) (e : ℕ)
    (he : e ∈ exps) (h : ∀ e' ∈ exps, env.patchThrows (some i) e' = false) :
    e ∈ (aget (patchAll env st i exps).1.instrumented (some i)).getD [] := by
  induction exps generalizing st with
  | nil => simp at he
  | cons e0 rest ih =>
    have hth : (patchOp env st (some i) e0).2 = false := by
      unfold patchOp
      rcases hs : aget st.instrumented (some i) with _ | s
      · exact h e0 (by simp)
      · by_cases he0 : e0 ∈ s
        · simp [he0]
        · simpa [he0] using h e0 (by simp)
    simp only [patchAll, hth, if_false]
    rcases List.mem_cons.mp he with h0 | h0
    · subst h0
      exact patchAll_mem_mono env i rest _ (some i) e (patchOp_mem_self env st (some i) e)
    · exact ih _ h0 (fun e' he' => h e' (List.mem_cons_of_mem e0 he'))

theorem loadMany_no_throw (env : OEnv) (p2 : ℕ) (st : IState)
    (hok : ∀ i ∈ env.pluginInsts p2, ∀ e ∈ env.available i,
      env.patchThrows (some i) e = false) :
    (loadMany env st (instsOf env (some p2))).2 = false := by
  show (loadMany env st ((env.pluginInsts p2).map some)).2 = false
  have hsub : ∀ i ∈ env.pluginInsts p2, ∀ e ∈ env.available i,
      env.patchThrows (some i) e = false := hok
  revert hsub
  generalize env.pluginInsts p2 = l
  intro hsub
  induction l generalizing st with
  | nil => rfl
  | cons i rest ih =>
    have hl : (loaderLoad env st (some i)).2 = false :=
      patchAll_no_throw env i (env.available i) st (hsub i (by simp))
    simp only [List.map_cons, loadMany, hl, if_false]
    exact ih _ (fun i' hi' => hsub i' (List.mem_cons_of_mem i hi'))

theorem loadMany_mem_mono (env : OEnv) (insts : List (Option ℕ)) (st : IState)
    (k : Option ℕ) (x : ℕ) (hx : x ∈ (aget st.instrumented k).getD []) :
    x ∈ (aget (loadMany env st insts).1.instrumented k).getD [] := by
  induction insts generalizing st with
  | nil => exact hx
  | cons i rest ih =>
    rcases i with _ | i
    · simpa [loadMany, loaderLoad] using hx
    · simp only [loadMany, loaderLoad]
      by_cases ht : (patchAll env st i (env.available i)).2 = true
      · simpa [ht] using patchAll_mem_mono env i (env.available i) st k x hx
      · simp only [ht, if_false]
        exact ih _ (patchAll_mem_mono env i (env.available i) st k x hx)

theorem loadMany_mem (env : OEnv) (p2 : ℕ) (st : IState) (i : ℕ) (e : ℕ)
    (hi : i ∈ env.pluginInsts p2) (he : e ∈ env.available i)
    (hok : ∀ i' ∈ env.pluginInsts p2, ∀ e' ∈ env.available i',
      env.patchThrows (some i') e' = false) :
    e ∈ (aget (loadMany env st (instsOf env (some p2))).1.instrumented (some i)).getD [] := by
  show e ∈ (aget (loadMany env st ((env.pluginInsts p2).map some)).1.instrumented (some i)).getD []
  revert hok hi
  generalize env.pluginInsts p2 = l
  intro hi hok
  induction l generalizing st with
  | nil => simp at hi
  | cons i0 rest ih =>
    have hl : (loaderLoad env st (some i0)).2 = false :=
      patchAll_no_throw env i0 (env.available i0) st (hok i0 (by simp))
    simp only [List.map_cons, loadMany, hl, if_false]
    rcases List.mem_cons.mp hi with h0 | h0
    · subst h0
      exact loadMany_mem_mono env _ _ (some i) e
        (patchAll_mem env i (env.available i) st e he (hok i (by simp)))
    · exact ih _ h0 (fun i' hi' => hok i' (List.mem_cons_of_mem i0 hi'))

theorem unload_enabled (env : OEnv) (st : IState) (p : Option ℕ) :
    (unload env st p).enabled = st.enabled := by
  unfold unload
  rcases hm : aget ((instsOf env p).foldl (unloadStep env) st).pluginsMap p with _ | m
  · simpa [hm] using (unloadFold_frame env (instsOf env p) st).2.1
  · simpa [hm] using (unloadFold_frame env (instsOf env p) st).2.1

/-! ### Preservation of `untouched` by every operation that avoids the plugin -/

theorem getObj_set_self (h : Heap) (r : ℕ) (o : Obj) (hr : r < h.length) :
    getObj (h.set r o) r = o := by
  induction h generalizing r with
  | nil => simp at hr
  | cons x t ih =>
    cases r with
    | zero => rfl
    | succ r' =>
      show getObj (t.set r' o) r' = o
      exact ih r' (by simpa using hr)

theorem getMember_set_self (h : Heap) (r : ℕ) (n : String) (v : JsVal)
    (hr : r < h.length) : getMember (setMember h r n v) r n = some v := by
  unfold getMember setMember
  rw [getObj_set_self h r _ hr]
  exact aget_aset_self _ n v

theorem setMember_length (h : Heap) (r : ℕ) (n : String) (v : JsVal) :
    (setMember h r n v).length = h.length := by
  unfold setMember
  exact List.length_set h r _

theorem untouched_of_eq (env : OEnv) (pid : ℕ) (st st' : IState)
    (h1 : st'.pluginsMap = st.pluginsMap) (h2 : st'.instrumented = st.instrumented)
    (h3 : st'.patchCalls = st.patchCalls) (hu : untouched env pid st) :
    untouched env pid st' := by
  obtain ⟨a, b, c⟩ := hu
  refine ⟨?_, ?_, ?_⟩
  · rw [h1]; exact a
  · rw [h2]; exact b
  · rw [h3]; exact c

theorem patchOp_untouched (env : OEnv) (pid : ℕ) (st : IState) (i : Option ℕ) (e : ℕ)
    (hi : ∀ j, i = some j → j ∉ env.pluginInsts pid)
    (hu : untouched env pid st) : untouched env pid (patchOp env st i e).1 := by
  obtain ⟨h1, h2, h3⟩ := hu
  refine ⟨by rw [(patchOp_frame env st i e).1]; exact h1, ?_, ?_⟩
  · intro i' hi'
    have hne : i ≠ some i' := by
      intro hc
      exact hi i' hc hi'
    unfold patchOp
    rcases hs : aget st.instrumented i with _ | s
    · simpa [aget_aset_ne _ i (some i') _ hne] using h2 i' hi'
    · by_cases he : e ∈ s
      · simpa [he] using h2 i' hi'
      · simpa [he, aget_aset_ne _ i (some i') _ hne] using h2 i' hi'
  · intro pr hpr i' hi'
    have hmem : pr ∈ st.patchCalls ++ [(i, e)] ∨ pr ∈ st.patchCalls := by
      unfold patchOp at hpr
      rcases hs : aget st.instrumented i with _ | s
      · rw [hs] at hpr
        exact Or.inl hpr
      · rw [hs] at hpr
        by_cases he : e ∈ s
        · simp only [he, if_true] at hpr
          exact Or.inr hpr
        · simp only [he, if_false] at hpr
          exact Or.inl hpr
    rcases hmem with hm | hm
    · rcases List.mem_append.mp hm with hm' | hm'
      · exact h3 pr hm' i' hi'
      · have : pr = (i, e) := by simpa using hm'
        rw [this]
        intro hc
        exact hi i' hc hi'
    · exact h3 pr hm i' hi'

theorem patchAll_untouched (env : OEnv) (pid : ℕ) (i : ℕ) (exps : List ℕ) (st : IState)
    (hi : i ∉ env.pluginInsts pid)
    (hu : untouched env pid st) : untouched env pid (patchAll env st i exps).1 := by
  induction exps generalizing st with
  | nil => exact hu
  | cons e rest ih =>
    have hstep : untouched env pid (patchOp env st (some i) e).1 :=
      patchOp_untouched env pid st (some i) e
        (fun j hj => by rw [(Option.some_inj.mp hj).symm]; exact hi) hu
    simp only [patchAll]
    by_cases ht : (patchOp env st (some i) e).2
    · simpa [ht] using hstep
    · simp only [ht, if_false]
      exact ih _ hstep

theorem loaderLoad_untouched (env : OEnv) (pid : ℕ) (st : IState) (i : Option ℕ)
    (hi : ∀ j, i = some j → j ∉ env.pluginInsts pid)
    (hu : untouched env pid st) : untouched env pid (loaderLoad env st i).1 := by
  rcases i with _ | i
  · exact hu
  · exact patchAll_untouched env pid i (env.available i) st (hi i rfl) hu

theorem loadMany_untouched (env : OEnv) (pid : ℕ) (insts : List (Option ℕ)) (st : IState)
    (hins : ∀ i ∈ insts, ∀ j, i = some j → j ∉ env.pluginInsts pid)
    (hu : untouched env pid st) : untouched env pid (loadMany env st insts).1 := by
  induction insts generalizing st with
  | nil => exact hu
  | cons i rest ih =>
    have hstep : untouched env pid (loaderLoad env st i).1 :=
      loaderLoad_untouched env pid st i (hins i (by simp)) hu
    simp only [loadMany]
    by_cases ht : (loaderLoad env st i).2
    · simpa [ht] using hstep
    · simp only [ht, if_false]
      exact ih _ (fun i' hi' => hins i' (List.mem_cons_of_mem i hi')) hstep

theorem unloadStep_untouched (env : OEnv) (pid : ℕ) (st : IState) (i : Option ℕ)
    (hu : untouched env pid st) : untouched env pid (unloadStep env st i) := by
  obtain ⟨h1, h2, h3⟩ := hu
  refine ⟨by rw [(unloadStep_frame env st i).1]; exact h1, ?_, ?_⟩
  · intro i' hi'
    exact unloadStep_instr_none env st i (some i') (h2 i' hi')
  · rw [(unloadStep_frame env st i).2.2]
    exact h3

theorem unloadFold_untouched (env : OEnv) (pid : ℕ) (l : List (Option ℕ)) (st : IState)
    (hu : untouched env pid st) :
    untouched env pid (l.foldl (unloadStep env) st) := by
  induction l generalizing st with
  | nil => exact hu
  | cons i rest ih => exact ih _ (unloadStep_untouched env pid st i hu)

theorem unload_untouched (env : OEnv) (pid : ℕ) (st : IState) (p : Option ℕ)
    (hu : untouched env pid st) : untouched env pid (unload env st p) := by
  have hfold := unloadFold_untouched env pid (instsOf env p) st hu
  unfold unload
  rcases hm : aget ((instsOf env p).foldl (unloadStep env) st).pluginsMap p with _ | m
  · simpa [hm] using hfold
  · simp only [hm]
    obtain ⟨a, b, c⟩ := hfold
    exact ⟨aget_adel_none _ p (some pid) a, b, c⟩

theorem load_untouched (env : OEnv) (pid : ℕ) (st : IState) (p : Option ℕ)
    (hins : ∀ i ∈ instsOf env p, ∀ j, i = some j → j ∉ env.pluginInsts pid)
    (hu : untouched env pid st) : untouched env pid (load env st p) := by
  unfold load
  by_cases hen : st.enabled = false
  · simpa [hen] using hu
  · simp only [hen, if_false]
    have hmany := loadMany_untouched env pid (instsOf env p) st hins hu
    by_cases ht : (loadMany env st (instsOf env p)).2
    · simpa [ht] using unload_untouched env pid _ p hmany
    · simpa [ht] using hmany

theorem setOp_untouched (env : OEnv) (pid : ℕ) (st : IState) (p : Option ℕ) (meta : Meta)
    (Hdisj : instsDisjoint env pid)
    (hp : p = some pid → meta.name ∈ env.disabledPlugins)
    (hu : untouched env pid st) : untouched env pid (setOp env st p meta) := by
  unfold setOp
  by_cases hd : meta.name ∈ env.disabledPlugins
  · simpa [hd] using hu
  · simp only [hd, if_false]
    have hpne : p ≠ some pid := fun hc => hd (hp hc)
    apply load_untouched
    · intro i hi j hij
      rcases p with _ | p'
      · simp only [instsOf, List.mem_singleton] at hi
        rw [hi] at hij
        cases hij
      · simp only [instsOf, List.mem_map] at hi
        obtain ⟨j0, hj0, hj0e⟩ := hi
        have hj : j = j0 := by
          rw [← hj0e] at hij
          exact (Option.some_inj.mp hij).symm
        rw [hj]
        have hne' : p' ≠ pid := fun hc => hpne (by rw [hc])
        exact Hdisj p' hne' j0 hj0
    · obtain ⟨a, b, c⟩ := hu
      exact ⟨by simpa using (aget_aset_ne st.pluginsMap p (some pid) meta hpne).trans a, b, c⟩

theorem use_untouched (env : OEnv) (pid : ℕ) (st : IState) (name : String) (arg : UseArg)
    (Hdisj : instsDisjoint env pid)
    (Hname : aget env.catalog (jsToLower name) = some pid → name ∈ env.disabledPlugins)
    (hu : untouched env pid st) : untouched env pid (use env st name arg) := by
  unfold use
  exact setOp_untouched env pid st _ _ Hdisj Hname hu

theorem setFold_untouched (env : OEnv) (pid : ℕ) (l : List (String × ℕ)) (st : IState)
    (hl : ∀ np ∈ l, np ∈ env.catalog)
    (Hnodup : (env.catalog.map Prod.fst).Nodup)
    (Hcat : ∀ n, aget env.catalog n = some pid → n ∈ env.disabledPlugins)
    (Hdisj : instsDisjoint env pid)
    (hu : untouched env pid st) :
    untouched env pid (l.foldl
      (fun s np => setOp env s (some np.2) ⟨np.1, getConfig np.1 (env.envOf np.1) {}⟩) st) := by
  induction l generalizing st with
  | nil => exact hu
  | cons np rest ih =>
    have hstep : untouched env pid
        (setOp env st (some np.2) ⟨np.1, getConfig np.1 (env.envOf np.1) {}⟩) := by
      apply setOp_untouched env pid st _ _ Hdisj _ hu
      intro hc
      have hpid : np.2 = pid := Option.some_inj.mp hc
      have : aget env.catalog np.1 = some pid := by
        rw [← hpid]
        exact aget_of_mem_nodup env.catalog np.1 np.2 Hnodup
          (by simpa using hl np (by simp))
      exact Hcat np.1 this
    exact ih _ (fun np' h' => hl np' (List.mem_cons_of_mem np h')) hstep

theorem enable_untouched (env : OEnv) (pid : ℕ) (st : IState) (b : Bool)
    (Hnodup : (env.catalog.map Prod.fst).Nodup)
    (Hcat : ∀ n, aget env.catalog n = some pid → n ∈ env.disabledPlugins)
    (Hdisj : instsDisjoint env pid)
    (hu : untouched env pid st) : untouched env pid (enable env st b) := by
  have hu1 : untouched env pid { st with enabled := true } := hu
  unfold enable
  by_cases hb : b
  · simp only [hb, if_true]
    exact setFold_untouched env pid _ _ (fun np h => List.mem_of_mem_filter h)
      Hnodup Hcat Hdisj hu1
  · simpa [hb] using hu1

theorem unpatchFold_frame (env : OEnv) (l : List (Option ℕ)) (st : IState) :
    (l.foldl (unpatchOp env) st).pluginsMap = st.pluginsMap ∧
    (l.foldl (unpatchOp env) st).instrumented = st.instrumented ∧
    (l.foldl (unpatchOp env) st).patchCalls = st.patchCalls := by
  induction l generalizing st with
  | nil => exact ⟨rfl, rfl, rfl⟩
  | cons i rest ih =>
    have h1 := unpatchOp_frame env st i
    have h2 := ih (unpatchOp env st i)
    exact ⟨h2.1.trans h1.1, h2.2.1.trans h1.2.2.1, h2.2.2.trans h1.2.2.2⟩

theorem disable_untouched (env : OEnv) (pid : ℕ) (st : IState)
    (hu : untouched env pid st) : untouched env pid (disable env st) := by
  have hf := unpatchFold_frame env (st.instrumented.map Prod.fst) st
  obtain ⟨a, b, c⟩ := hu
  unfold disable
  refine ⟨rfl, ?_, ?_⟩
  · intro i' hi'
    show aget ((st.instrumented.map Prod.fst).foldl (unpatchOp env) st).instrumented
      (some i') = none
    rw [hf.2.1]
    exact b i' hi'
  · show ∀ pr ∈ ((st.instrumented.map Prod.fst).foldl (unpatchOp env) st).patchCalls, _
    rw [hf.2.2]
    exact c

theorem unloadFold_instr_other (env : OEnv) (l : List (Option ℕ)) (st : IState)
    (k : Option ℕ) (hk : k ∉ l) :
    aget ((l.foldl (unloadStep env) st)).instrumented k = aget st.instrumented k := by
  induction l generalizing st with
  | nil => rfl
  | cons i rest ih =>
    have hki : i ≠ k := fun hc => hk (by rw [hc]; simp)
    have hstep : aget (unloadStep env st i).instrumented k = aget st.instrumented k := by
      show aget (adel (unpatchOp env st i).instrumented i) k = _
      rw [aget_adel_ne _ i k hki, (unpatchOp_frame env st i).2.2.1]
    exact ((ih (unloadStep env st i) (fun hc => hk (List.mem_cons_of_mem i hc))).trans hstep)

theorem unload_pluginsMap_other (env : OEnv) (st : IState) (p k : Option ℕ)
    (hk : p ≠ k) :
    aget (unload env st p).pluginsMap k = aget st.pluginsMap k := by
  have hfold := (unloadFold_frame env (instsOf env p) st).1
  unfold unload
  rcases hm : aget ((instsOf env p).foldl (unloadStep env) st).pluginsMap p with _ | m
  · simp only [hm]
    rw [hfold]
  · simp only [hm]
    rw [aget_adel_ne _ p k hk, hfold]

theorem unload_instr_other (env : OEnv) (st : IState) (p : Option ℕ) (k : Option ℕ)
    (hk : k ∉ instsOf env p) :
    aget (unload env st p).instrumented k = aget st.instrumented k := by
  have hfold := unloadFold_instr_other env (instsOf env p) st k hk
  unfold unload
  rcases hm : aget ((instsOf env p).foldl (unloadStep env) st).pluginsMap p with _ | m
  · simp only [hm]
    exact hfold
  · simp only [hm]
    exact hfold

theorem unload_patchCalls (env : OEnv) (st : IState) (p : Option ℕ) :
    (unload env st p).patchCalls = st.patchCalls := by
  have hfold := (unloadFold_frame env (instsOf env p) st).2.2
  unfold unload
  rcases hm : aget ((instsOf env p).foldl (unloadStep env) st).pluginsMap p with _ | m
  · simp only [hm]
    exact hfold
  · simp only [hm]
    exact hfold

/-! ### The claims -/

/-- C2: for every instrumentation and exports object not yet patched,
calling `patch` twice in sequence invokes the integration's `patch`
capability exactly once — the first call records exactly one invocation in
the ghost log, and the second call is a no-op on that pair (state
unchanged, nothing thrown). -/
theorem c2_patch_at_most_once (env : OEnv) (st : IState) (i : Option ℕ) (e : ℕ)
    (h : e ∉ (aget st.instrumented i).getD []) :
    (patchOp env st i e).1.patchCalls = st.patchCalls ++ [(i, e)] ∧
    (patchOp env (patchOp env st i e).1 i e).1 = (patchOp env st i e).1 ∧
    (patchOp env (patchOp env st i e).1 i e).2 = false := by
  rcases hs : aget st.instrumented i with _ | s
  · have hst1 : patchOp env st i e =
        ({ st with instrumented := aset st.instrumented i [e],
                   patchCalls := st.patchCalls ++ [(i, e)] }, env.patchThrows i e) := by
      unfold patchOp
      rw [hs]
    have hmem : aget (aset st.instrumented i [e]) i = some [e] :=
      aget_aset_self st.instrumented i [e]
    refine ⟨by rw [hst1], ?_, ?_⟩
    · rw [hst1]
      unfold patchOp
      simp [hmem]
    · rw [hst1]
      unfold patchOp
      simp [hmem]
  · have he : e ∉ s := by
      rw [hs] at h
      simpa using h
    have hst1 : patchOp env st i e =
        ({ st with instrumented := aset st.instrumented i (s ++ [e]),
                   patchCalls := st.patchCalls ++ [(i, e)] }, env.patchThrows i e) := by
      unfold patchOp
      rw [hs]
      simp [he]
    have hmem : aget (aset st.instrumented i (s ++ [e])) i = some (s ++ [e]) :=
      aget_aset_self st.instrumented i (s ++ [e])
    refine ⟨by rw [hst1], ?_, ?_⟩
    · rw [hst1]
      unfold patchOp
      simp [hmem]
    · rw [hst1]
      unfold patchOp
      simp [hmem]

theorem c2_witness :
    5 ∉ (aget stOn.instrumented (some 7)).getD [] ∧
    ((patchOp envFix stOn (some 7) 5).1.patchCalls = stOn.patchCalls ++ [(some 7, 5)] ∧
     (patchOp envFix (patchOp envFix stOn (some 7) 5).1 (some 7) 5).1
       = (patchOp envFix stOn (some 7) 5).1 ∧
     (patchOp envFix (patchOp envFix stOn (some 7) 5).1 (some 7) 5).2 = false) :=
  ⟨by decide, c2_patch_at_most_once envFix stOn (some 7) 5 (by decide)⟩

/-- C3: if any requested member is missing or not callable on any target of
the batch, `wrap` throws and no member of any target is modified: the heap
is returned exactly as it was and the interception primitive is never
invoked. -/
theorem c3_wrap_atomic (h : Heap) (refs : List ℕ) (names : List String) (f : Factory)
    (hbad : ∃ r ∈ refs, ∃ n ∈ names, isCallable (getMember h r n) = false) :
    (wrapT h refs names f).1.isSome ∧ (wrapT h refs names f).2.1 = h ∧
    (wrapT h refs names f).2.2 = 0 := by
  have hv : validOk h refs names = false := by
    rw [Bool.eq_false_iff]
    intro hall
    obtain ⟨r, hr, n, hn, hc⟩ := hbad
    have h1 := (List.all_eq_true.mp hall) r hr
    have h2 := (List.all_eq_true.mp h1) n hn
    rw [hc] at h2
    cases h2
  simp [wrapT, hv]

theorem c3_witness :
    (∃ r ∈ [0, 1], ∃ n ∈ ["f", "g"], isCallable (getMember heapAB r n) = false) ∧
    (wrapT heapAB [0, 1] ["f", "g"] (.generic 2)).1.isSome ∧
    (wrapT heapAB [0, 1] ["f", "g"] (.generic 2)).2.1 = heapAB ∧
    (wrapT heapAB [0, 1] ["f", "g"] (.generic 2)).2.2 = 0 :=
  ⟨⟨1, by decide, "g", by decide, rfl⟩,
   c3_wrap_atomic heapAB [0, 1] ["f", "g"] (.generic 2) ⟨1, by decide, "g", by decide, rfl⟩⟩

/-- C4: the claim fails on the code (code bug — the `return` at the bottom
of the marker branch exits the whole wrapping loop where a `continue` over
the remaining pairs is clearly intended, given that the validation pass
checks the full cartesian product and the comment above the loop announces
wrapping everything).  At the failing input — one target whose member
`"f"` carries the `_datadog_wrapped` marker and whose member `"g"` does
not — the run validates, updates `"f"`'s indirection, and then returns:
`"g"` is left completely unprocessed (no marker set, member not replaced,
interception primitive never invoked), while the claim requires every pair
of the batch to be processed. -/
theorem c4_wrap_skips_rest_of_batch :
    (wrapT heapFG [0] ["f", "g"] (.generic 7)).1 = none ∧
    getMember (wrapT heapFG [0] ["f", "g"] (.generic 7)).2.1 0 "f"
      = some (.func (.prepatchShim (plainFn 0)) true
          (some (.func (.factoryApplied 7 (plainFn 0)) false none))) ∧
    getMember (wrapT heapFG [0] ["f", "g"] (.generic 7)).2.1 0 "g" = some (plainFn 1) ∧
    (wrapT heapFG [0] ["f", "g"] (.generic 7)).2.2 = 0 :=
  ⟨rfl, rfl, rfl, rfl⟩

/-- C5 counterexample: after a successful `patch` of instrumentation 7 on
exports object 5 followed by `unpatch`, the InstrumentedSet still holds
the entry — the claim's "holds no entry for that instrumentation" is
false — `disable()` leaves the entry in place as well, and a subsequent
`patch` of the same pair does not invoke the patch capability again (the
ghost log does not grow). -/
theorem c5_counterexample :
    aget (unpatchOp envFix (patchOp envFix stOn (some 7) 5).1 (some 7)).instrumented
        (some 7) = some [5] ∧
    ¬ (aget (unpatchOp envFix (patchOp envFix stOn (some 7) 5).1 (some 7)).instrumented
        (some 7) = none) ∧
    aget (disable envFix (patchOp envFix stOn (some 7) 5).1).instrumented (some 7)
      = some [5] ∧
    (patchOp envFix (unpatchOp envFix (patchOp envFix stOn (some 7) 5).1 (some 7))
        (some 7) 5).1.patchCalls
      = (patchOp envFix stOn (some 7) 5).1.patchCalls := by decide

/-- C5 (amended): `unpatch` retains the InstrumentedSet entry — it only
invokes the unpatch capability per exports object; the entry is removed by
`unload`, after which a subsequent `patch` of the same
(instrumentation, exports object) pair invokes the patch capability
again. -/
theorem c5_unload_clears_entries (env : OEnv) (st : IState) (p : Option ℕ) :
    (∀ i : Option ℕ, (unpatchOp env st i).instrumented = st.instrumented) ∧
    (∀ i ∈ instsOf env p, aget (unload env st p).instrumented i = none) ∧
    (∀ i ∈ instsOf env p, ∀ e : ℕ,
      (patchOp env (unload env st p) i e).1.patchCalls
        = (unload env st p).patchCalls ++ [(i, e)]) := by
  refine ⟨?_, ?_, ?_⟩
  · intro i
    exact (unpatchOp_frame env st i).2.2.1
  · intro i hi
    exact unload_instr_mem env st p i hi
  · intro i hi e
    have hn := unload_instr_mem env st p i hi
    unfold patchOp
    rw [hn]

theorem c5_witness :
    (some 7) ∈ instsOf envFix (some 0) ∧
    ((∀ i : Option ℕ,
        (unpatchOp envFix (patchOp envFix stOn (some 7) 5).1 i).instrumented
          = (patchOp envFix stOn (some 7) 5).1.instrumented) ∧
     (∀ i ∈ instsOf envFix (some 0),
        aget (unload envFix (patchOp envFix stOn (some 7) 5).1 (some 0)).instrumented i
          = none) ∧
     (∀ i ∈ instsOf envFix (some 0), ∀ e : ℕ,
        (patchOp envFix (unload envFix (patchOp envFix stOn (some 7) 5).1 (some 0)) i e).1.patchCalls
          = (unload envFix (patchOp envFix stOn (some 7) 5).1 (some 0)).patchCalls ++ [(i, e)])) :=
  ⟨by decide, c5_unload_clears_entries envFix (patchOp envFix stOn (some 7) 5).1 (some 0)⟩

/-- C7 counterexample: wrapping a plain member (no `_datadog_wrapped`
marker) twice with two different generic wrapper factories invokes the
underlying interception primitive twice, not once as the claim states —
each wrap goes through `shimmer.wrap` because the generic wrappers do not
install the indirection marker; the member ends as two stacked
interception layers rather than one layer with an updated indirection. -/
theorem c7_counterexample :
    (wrapT heapM [0] ["m"] (.generic 10)).2.2 +
      (wrapT (wrapT heapM [0] ["m"] (.generic 10)).2.1 [0] ["m"] (.generic 11)).2.2 = 2 ∧
    ¬ ((wrapT heapM [0] ["m"] (.generic 10)).2.2 +
      (wrapT (wrapT heapM [0] ["m"] (.generic 10)).2.1 [0] ["m"] (.generic 11)).2.2 = 1) ∧
    getMember (wrapT (wrapT heapM [0] ["m"] (.generic 10)).2.1 [0] ["m"]
        (.generic 11)).2.1 0 "m"
      = some (.func (.factoryApplied 11
          (.func (.factoryApplied 10 (.func (.plain 0) true none)) true none)) false none) :=
  ⟨rfl, by decide, rfl⟩

/-- C7 (amended): when the member already carries the `_datadog_wrapped`
indirection installed by the prepatch staging mechanism, wrapping it twice
with two generic wrapper factories updates the indirection both times and
never invokes the interception primitive; a single invocation of the
member then exhibits both wrappers' behaviors layered over the staged
original, the later-installed wrapper outermost. -/
theorem c7_chained_wrap (h : Heap) (r : ℕ) (n : String) (cap w : JsVal) (p : Bool)
    (f1 f2 : ℕ) (hr : r < h.length)
    (hm : getMember h r n = some (.func (.prepatchShim cap) p (some w))) :
    (wrapT h [r] [n] (.generic f1)).1 = none ∧
    (wrapT h [r] [n] (.generic f1)).2.2 = 0 ∧
    (wrapT (wrapT h [r] [n] (.generic f1)).2.1 [r] [n] (.generic f2)).1 = none ∧
    (wrapT (wrapT h [r] [n] (.generic f1)).2.1 [r] [n] (.generic f2)).2.2 = 0 ∧
    getMember (wrapT (wrapT h [r] [n] (.generic f1)).2.1 [r] [n] (.generic f2)).2.1 r n
      = some (.func (.prepatchShim cap) true
          (some (.func (.factoryApplied f2
            (.func (.factoryApplied f1 w) false none)) false none))) ∧
    valTrace (.func (.prepatchShim cap) true
        (some (.func (.factoryApplied f2
          (.func (.factoryApplied f1 w) false none)) false none)))
      = f2 :: f1 :: valTrace w := by
  have hvalid1 : validOk h [r] [n] = true := by
    simp [validOk, hm, isCallable]
  have hw1 : wrapT h [r] [n] (.generic f1)
      = (none, setMember h r n (.func (.prepatchShim cap) true
          (some (.func (.factoryApplied f1 w) false none))), 0) := by
    simp [wrapT, hvalid1, pairsOf, wrapLoop, wrapStep, hm, applyFactory]
  have hm2 : getMember (setMember h r n (.func (.prepatchShim cap) true
        (some (.func (.factoryApplied f1 w) false none)))) r n
      = some (.func (.prepatchShim cap) true
          (some (.func (.factoryApplied f1 w) false none))) :=
    getMember_set_self h r n _ hr
  have hvalid2 : validOk (setMember h r n (.func (.prepatchShim cap) true
        (some (.func (.factoryApplied f1 w) false none)))) [r] [n] = true := by
    simp [validOk, hm2, isCallable]
  have hw2 : wrapT (setMember h r n (.func (.prepatchShim cap) true
        (some (.func (.factoryApplied f1 w) false none)))) [r] [n] (.generic f2)
      = (none, setMember (setMember h r n (.func (.prepatchShim cap) true
            (some (.func (.factoryApplied f1 w) false none)))) r n
          (.func (.prepatchShim cap) true
            (some (.func (.factoryApplied f2
              (.func (.factoryApplied f1 w) false none)) false none))), 0) := by
    simp [wrapT, hvalid2, pairsOf, wrapLoop, wrapStep, hm2, applyFactory]
  refine ⟨by rw [hw1], by rw [hw1], ?_, ?_, ?_, ?_⟩
  · rw [hw1]
    show (wrapT (setMember h r n (.func (.prepatchShim cap) true
        (some (.func (.factoryApplied f1 w) false none)))) [r] [n] (.generic f2)).1 = none
    rw [hw2]
  · rw [hw1]
    show (wrapT (setMember h r n (.func (.prepatchShim cap) true
        (some (.func (.factoryApplied f1 w) false none)))) [r] [n] (.generic f2)).2.2 = 0
    rw [hw2]
  · rw [hw1]
    show getMember (wrapT (setMember h r n (.func (.prepatchShim cap) true
        (some (.func (.factoryApplied f1 w) false none)))) [r] [n] (.generic f2)).2.1 r n
      = some (.func (.prepatchShim cap) true
          (some (.func (.factoryApplied f2
            (.func (.factoryApplied f1 w) false none)) false none)))
    rw [hw2]
    show getMember (setMember (setMember h r n (.func (.prepatchShim cap) true
        (some (.func (.factoryApplied f1 w) false none)))) r n
          (.func (.prepatchShim cap) true
            (some (.func (.factoryApplied f2
              (.func (.factoryApplied f1 w) false none)) false none)))) r n = _
    exact getMember_set_self _ r n _ (by rw [setMember_length]; exact hr)
  · simp [valTrace, coreTrace, truthy]

theorem c7_witness :
    getMember heapFG 0 "f"
      = some (.func (.prepatchShim (plainFn 0)) false (some (plainFn 0))) ∧
    ((wrapT heapFG [0] ["f"] (.generic 10)).1 = none ∧
     (wrapT heapFG [0] ["f"] (.generic 10)).2.2 = 0 ∧
     (wrapT (wrapT heapFG [0] ["f"] (.generic 10)).2.1 [0] ["f"] (.generic 11)).1 = none ∧
     (wrapT (wrapT heapFG [0] ["f"] (.generic 10)).2.1 [0] ["f"] (.generic 11)).2.2 = 0 ∧
     getMember (wrapT (wrapT heapFG [0] ["f"] (.generic 10)).2.1 [0] ["f"]
        (.generic 11)).2.1 0 "f"
       = some (.func (.prepatchShim (plainFn 0)) true
           (some (.func (.factoryApplied 11
             (.func (.factoryApplied 10 (plainFn 0)) false none)) false none))) ∧
     valTrace (.func (.prepatchShim (plainFn 0)) true
         (some (.func (.factoryApplied 11
           (.func (.factoryApplied 10 (plainFn 0)) false none)) false none)))
       = 11 :: 10 :: valTrace (plainFn 0)) :=
  ⟨rfl, c7_chained_wrap heapFG 0 "f" (plainFn 0) (plainFn 0) false 10 11 (by decide) rfl⟩

/-- C8 counterexample: `use` with the unknown name `"bar"` on a disabled
engine is not a no-op on orchestrator state — `plugins["bar"]` is
`undefined`, `_set` stores a RegistrationEntry keyed by it, and since the
engine is disabled `load` returns before anything removes it, so the
registry differs from its pre-call value. -/
theorem c8_counterexample :
    aget (use envFix stOff "bar" .noArg).pluginsMap none = some ⟨"bar", {}⟩ ∧
    ¬ ((use envFix stOff "bar" .noArg).pluginsMap = stOff.pluginsMap) := by decide

/-- C8 (amended): `use` with a name that has no catalog entry does not
throw, and it leaves every catalog plugin's registration, every real
instrumentation's InstrumentedSet entry, the patch-capability invocation
history and the enabled flag unchanged; only the registry binding at the
`undefined` plugin key may change (stored while the engine is disabled,
added and removed again when enabled because the Load Hook rejects the
undefined instrumentation). -/
theorem load_none (env : OEnv) (st : IState) :
    load env st none = if st.enabled = false then st else unload env st none := rfl

theorem use_eq (env : OEnv) (st : IState) (name : String) (arg : UseArg) :
    use env st name arg = setOp env st (aget env.catalog (jsToLower name))
      (Meta.mk name (getConfig name (env.envOf name) (normalizeUseConfig arg))) := rfl

theorem load_eq (env : OEnv) (st : IState) (p : Option ℕ) :
    load env st p = if st.enabled = false then st
      else if (loadMany env st (instsOf env p)).2
        then unload env (loadMany env st (instsOf env p)).1 p
        else (loadMany env st (instsOf env p)).1 := rfl

theorem setOp_disabled (env : OEnv) (st : IState) (p : Option ℕ) (meta : Meta)
    (hd : meta.name ∈ env.disabledPlugins) : setOp env st p meta = st := by
  unfold setOp
  exact if_pos hd

theorem setOp_not_disabled (env : OEnv) (st : IState) (p : Option ℕ) (meta : Meta)
    (hd : meta.name ∉ env.disabledPlugins) :
    setOp env st p meta
      = load env { st with pluginsMap := aset st.pluginsMap p meta } p := by
  unfold setOp
  exact if_neg hd

theorem load_none_frame (env : OEnv) (st : IState) :
    (∀ q : ℕ, aget (load env st none).pluginsMap (some q)
      = aget st.pluginsMap (some q)) ∧
    (∀ i : ℕ, aget (load env st none).instrumented (some i)
      = aget st.instrumented (some i)) ∧
    (load env st none).patchCalls = st.patchCalls ∧
    (load env st none).enabled = st.enabled := by
  rw [load_none]
  by_cases hen : st.enabled = false
  · rw [if_pos hen]
    exact ⟨fun q => rfl, fun i => rfl, rfl, rfl⟩
  · rw [if_neg hen]
    exact ⟨fun q => unload_pluginsMap_other env st none (some q) (by simp),
           fun i => unload_instr_other env st none (some i) (by simp [instsOf]),
           unload_patchCalls env st none, unload_enabled env st none⟩

theorem c8_use_unknown_frame (env : OEnv) (st : IState) (name : String) (arg : UseArg)
    (hunk : aget env.catalog (jsToLower name) = none) :
    (∀ q : ℕ, aget (use env st name arg).pluginsMap (some q)
      = aget st.pluginsMap (some q)) ∧
    (∀ i : ℕ, aget (use env st name arg).instrumented (some i)
      = aget st.instrumented (some i)) ∧
    (use env st name arg).patchCalls = st.patchCalls ∧
    (use env st name arg).enabled = st.enabled := by
  have hcfg : ∀ q : ℕ, aget (aset st.pluginsMap none
      (Meta.mk name (getConfig name (env.envOf name) (normalizeUseConfig arg)))) (some q)
      = aget st.pluginsMap (some q) := fun q =>
    aget_aset_ne st.pluginsMap none (some q) _ (by simp)
  rw [use_eq, hunk]
  by_cases hd : name ∈ env.disabledPlugins
  · rw [setOp_disabled env st none _ hd]
    exact ⟨fun q => rfl, fun i => rfl, rfl, rfl⟩
  · rw [setOp_not_disabled env st none _ hd]
    obtain ⟨a, b, c, d⟩ := load_none_frame env { st with pluginsMap := aset st.pluginsMap none (Meta.mk name (getConfig name (env.envOf name) (normalizeUseConfig arg))) }
    exact ⟨fun q => (a q).trans (hcfg q), b, c, d⟩

theorem c8_witness :
    aget envFix.catalog (jsToLower "nosuch") = none ∧
    ((∀ q : ℕ, aget (use envFix stOn "nosuch" .noArg).pluginsMap (some q)
       = aget stOn.pluginsMap (some q)) ∧
     (∀ i : ℕ, aget (use envFix stOn "nosuch" .noArg).instrumented (some i)
       = aget stOn.instrumented (some i)) ∧
     (use envFix stOn "nosuch" .noArg).patchCalls = stOn.patchCalls ∧
     (use envFix stOn "nosuch" .noArg).enabled = stOn.enabled) :=
  ⟨by decide, c8_use_unknown_frame envFix stOn "nosuch" .noArg (by decide)⟩

/-- C9: the resolved config's `analytics` field follows first-match-wins
precedence — explicit false wins, then a valid (non-NaN) sample rate
clamped to the unit interval, then explicit true, otherwise the field is
left exactly as it was (unset when the caller did not set it). -/
theorem c9_analytics_precedence (name : String) (env : EnvCfg) (config : IntConfig)
    (hname : name ≠ "") :
    (isFalseOpt env.analyticsEnabled = true →
      (getConfig name env config).analytics = some (Sum.inl false)) ∧
    (∀ q : ℚ, isFalseOpt env.analyticsEnabled = false →
      env.analyticsSampleRate = some q →
      (getConfig name env config).analytics = some (Sum.inr (min (max q 0) 1))) ∧
    (isFalseOpt env.analyticsEnabled = false → env.analyticsSampleRate = none →
      isTrueOpt env.analyticsEnabled = true →
      (getConfig name env config).analytics = some (Sum.inl true)) ∧
    (isFalseOpt env.analyticsEnabled = false → env.analyticsSampleRate = none →
      isTrueOpt env.analyticsEnabled = false →
      (getConfig name env config).analytics = config.analytics) := by
  refine ⟨?_, ?_, ?_, ?_⟩
  · intro hf
    rcases he : env.enabled with _ | v <;> simp [getConfig, hname, hf, he]
  · intro q hf hq
    rcases he : env.enabled with _ | v <;> simp [getConfig, hname, hf, hq, he]
  · intro hf hq ht
    rcases he : env.enabled with _ | v <;> simp [getConfig, hname, hf, hq, ht, he]
  · intro hf hq ht
    rcases he : env.enabled with _ | v <;> simp [getConfig, hname, hf, hq, ht, he]

theorem c9_witness :
    ("amqplib" : String) ≠ "" ∧
    ((isFalseOpt (EnvCfg.mk none (some "false") (some 2)).analyticsEnabled = true →
       (getConfig "amqplib" (EnvCfg.mk none (some "false") (some 2)) {}).analytics
         = some (Sum.inl false)) ∧
     (∀ q : ℚ, isFalseOpt (EnvCfg.mk none (some "false") (some 2)).analyticsEnabled = false →
       (EnvCfg.mk none (some "false") (some 2)).analyticsSampleRate = some q →
       (getConfig "amqplib" (EnvCfg.mk none (some "false") (some 2)) {}).analytics
         = some (Sum.inr (min (max q 0) 1))) ∧
     (isFalseOpt (EnvCfg.mk none (some "false") (some 2)).analyticsEnabled = false →
       (EnvCfg.mk none (some "false") (some 2)).analyticsSampleRate = none →
       isTrueOpt (EnvCfg.mk none (some "false") (some 2)).analyticsEnabled = true →
       (getConfig "amqplib" (EnvCfg.mk none (some "false") (some 2)) {}).analytics
         = some (Sum.inl true)) ∧
     (isFalseOpt (EnvCfg.mk none (some "false") (some 2)).analyticsEnabled = false →
       (EnvCfg.mk none (some "false") (some 2)).analyticsSampleRate = none →
       isTrueOpt (EnvCfg.mk none (some "false") (some 2)).analyticsEnabled = false →
       (getConfig "amqplib" (EnvCfg.mk none (some "false") (some 2)) {}).analytics
         = ({} : IntConfig).analytics)) :=
  ⟨by decide, c9_analytics_precedence "amqplib" (EnvCfg.mk none (some "false") (some 2)) {}
    (by decide)⟩

/-- C10: `wrapExport` on a value that is not callable returns exactly its
input — no forwarding shim is created, no wrapper reference is stored, no
state is mutated. -/
theorem c10_wrapExport_nonfunction (v : EVal) (w : ℕ) (h : v.isFn = false) :
    wrapExport v w = (v, v) := by
  simp [wrapExport, h]

/-- C1: failure isolation of `load`.  If the engine is enabled and the Load
Hook pass over an integration's instrumentation units throws (e.g. a patch
capability raises), then `load` — which is total: the `catch` swallows the
error, so nothing propagates to the caller — unloads the entire
integration: its RegistrationEntry is gone and every one of its
instrumentation units has no InstrumentedSet entry; the engine stays
enabled, and a subsequent `load` of any plugin whose patch capabilities do
not throw completes without error, leaves the registry untouched, and
instruments every matching exports object. -/
theorem c1_load_failure_isolation (env : OEnv) (st : IState) (p : Option ℕ) (p2 : ℕ)
    (hen : st.enabled = true)
    (hthrew : (loadMany env st (instsOf env p)).2 = true)
    (hok : ∀ i ∈ env.pluginInsts p2, ∀ e ∈ env.available i,
      env.patchThrows (some i) e = false) :
    aget (load env st p).pluginsMap p = none ∧
    (∀ i ∈ instsOf env p, aget (load env st p).instrumented i = none) ∧
    (load env st p).enabled = true ∧
    (loadMany env (load env st p) (instsOf env (some p2))).2 = false ∧
    (load env (load env st p) (some p2)).pluginsMap = (load env st p).pluginsMap ∧
    (∀ i ∈ env.pluginInsts p2, ∀ e ∈ env.available i,
      e ∈ (aget (load env (load env st p) (some p2)).instrumented (some i)).getD []) := by
  have hload : load env st p = unload env (loadMany env st (instsOf env p)).1 p := by
    unfold load
    rw [hen]
    simp [hthrew]
  have hen' : (load env st p).enabled = true := by
    rw [hload, unload_enabled]
    rw [(loadMany_frame env (instsOf env p) st).2.1]
    exact hen
  have hnothrow : (loadMany env (load env st p) (instsOf env (some p2))).2 = false :=
    loadMany_no_throw env p2 (load env st p) hok
  have hload2 : load env (load env st p) (some p2)
      = (loadMany env (load env st p) (instsOf env (some p2))).1 := by
    rw [load_eq env (load env st p) (some p2), hen']
    simp [hnothrow]
  refine ⟨?_, ?_, hen', hnothrow, ?_, ?_⟩
  · rw [hload]
    exact unload_pluginsMap_self env _ p
  · intro i hi
    rw [hload]
    exact unload_instr_mem env _ p i hi
  · rw [hload2]
    exact (loadMany_frame env (instsOf env (some p2)) (load env st p)).1
  · intro i hi e he
    rw [hload2]
    exact loadMany_mem env p2 (load env st p) i e hi he hok

theorem c1_witness :
    stOn.enabled = true ∧
    (loadMany envTwo stOn (instsOf envTwo (some 0))).2 = true ∧
    (aget (load envTwo stOn (some 0)).pluginsMap (some 0) = none ∧
     (∀ i ∈ instsOf envTwo (some 0),
        aget (load envTwo stOn (some 0)).instrumented i = none) ∧
     (load envTwo stOn (some 0)).enabled = true ∧
     (loadMany envTwo (load envTwo stOn (some 0)) (instsOf envTwo (some 1))).2 = false ∧
     (load envTwo (load envTwo stOn (some 0)) (some 1)).pluginsMap
       = (load envTwo stOn (some 0)).pluginsMap ∧
     (∀ i ∈ envTwo.pluginInsts 1, ∀ e ∈ envTwo.available i,
        e ∈ (aget (load envTwo (load envTwo stOn (some 0))
              (some 1)).instrumented (some i)).getD [])) :=
  ⟨rfl, by decide,
   c1_load_failure_isolation envTwo stOn (some 0) 1 rfl (by decide) (by decide)⟩

/-- C6 counterexample: plugin 0's catalog name `"foo"` is in the
Disabled-Set, yet `use("Foo", …)` creates a RegistrationEntry for it — the
catalog lookup lowercases the requested name while the Disabled-Set check
uses the caller-supplied casing, so the disabled integration is registered
(and so is no longer `untouched`), refuting the claim that no sequence of
`use`/`enable` calls ever registers it. -/
theorem c6_counterexample :
    "foo" ∈ envFix.disabledPlugins ∧
    aget envFix.catalog "foo" = some 0 ∧
    aget (use envFix stOff "Foo" .noArg).pluginsMap (some 0) = some ⟨"Foo", {}⟩ ∧
    ¬ untouched envFix 0 (use envFix stOff "Foo" .noArg) := by
  refine ⟨by decide, by decide, by decide, ?_⟩
  intro hu
  have h1 := hu.1
  rw [show aget (use envFix stOff "Foo" .noArg).pluginsMap (some 0)
      = some ⟨"Foo", {}⟩ from by decide] at h1
  cases h1

/-- C6 (amended): an integration whose catalog resolution is guarded by
the Disabled-Set is never registered, loaded or patched by any sequence of
`use`/`enable`/`disable` calls — provided every name that resolves to the
plugin through the lowercasing catalog lookup is itself (in its exact,
caller-supplied casing) in the Disabled-Set, and every catalog key bound
to the plugin is in the Disabled-Set.  Without the casing proviso the
guarantee fails, because `_set` checks the caller-supplied name against
the Disabled-Set while `use` lowercases the name for the catalog lookup. -/
theorem c6_disabled_precedence (env : OEnv) (pid : ℕ) (ops : List Op) (st : IState)
    (H0 : untouched env pid st)
    (Hnodup : (env.catalog.map Prod.fst).Nodup)
    (Hcat : ∀ n, aget env.catalog n = some pid → n ∈ env.disabledPlugins)
    (Hdisj : instsDisjoint env pid)
    (Hops : ∀ op ∈ ops, ∀ n a, op = Op.useOp n a →
      aget env.catalog (jsToLower n) = some pid → n ∈ env.disabledPlugins) :
    untouched env pid (run env ops st) := by
  induction ops generalizing st with
  | nil => exact H0
  | cons op rest ih =>
    have hstep : untouched env pid (applyOp env st op) := by
      cases op with
      | useOp n a =>
        exact use_untouched env pid st n a Hdisj (Hops _ (by simp) n a rfl) H0
      | enableOp b => exact enable_untouched env pid st b Hnodup Hcat Hdisj H0
      | disableOp => exact disable_untouched env pid st H0
    exact ih _ hstep (fun op' hop' n a he => Hops op' (List.mem_cons_of_mem op hop') n a he)

theorem c6_witness :
    untouched envFix 0 (run envFix
      [Op.useOp "foo" (.boolArg true), Op.enableOp true, Op.useOp "bar" .noArg,
       Op.disableOp] stOff) :=
  c6_disabled_precedence envFix 0
    [Op.useOp "foo" (.boolArg true), Op.enableOp true, Op.useOp "bar" .noArg,
     Op.disableOp] stOff (by unfold untouched; decide) (by decide)
    (by
      intro n hn
      by_cases h : "foo" = n
      · rw [← h]
        decide
      · rw [show envFix.catalog = [("foo", 0)] from rfl] at hn
        simp [aget, h] at hn)
    (by
      intro p' hp' i hi
      rw [show envFix.pluginInsts p' = if p' = 0 then [7] else [] from rfl] at hi
      rw [if_neg hp'] at hi
      simp at hi)
    (by
      intro op hop n a he hn
      simp only [List.mem_cons, List.not_mem_nil, or_false] at hop
      rcases hop with h | h | h | h
      · subst h
        injection he with h1 h2
        subst h1
        decide
      · subst h
        cases he
      · subst h
        injection he with h1 h2
        subst h1
        exact absurd hn (by decide)
      · subst h
        cases he)

theorem c10_witness :
    (EVal.mk false 3 none [("a", 1)] none).isFn = false ∧
    wrapExport (EVal.mk false 3 none [("a", 1)] none) 9
      = (EVal.mk false 3 none [("a", 1)] none, EVal.mk false 3 none [("a", 1)] none) :=
  ⟨rfl, c10_wrapExport_nonfunction (EVal.mk false 3 none [("a", 1)] none) 9 rfl⟩

